import Mathlib

/-
Shallow embedding of the Wave Function Collapse engine in
`packages/rust/src/wfc.rs`, together with proofs of the specification's
testable properties.  Rust `usize` arithmetic is modelled as `Nat` with an
explicit wrap modulo `2^64` where the source can underflow; the ambient
random generator used by `Cell::collapse` is modelled as an explicit `Nat`
oracle; a Rust `panic` (a failing `unwrap`) is modelled by `Option`, with
`none` standing for the panic.
-/

set_option maxRecDepth 8192

namespace WFC

/-- The modulus of Rust's `usize` arithmetic (64-bit target). -/
def USIZE : Nat := 2 ^ 64

/-- The four compass directions of `enum Edge`. -/
inductive Edge
  | Top
  | Right
  | Bottom
  | Left
deriving DecidableEq

/-- A `Socket` is a triple of `Sock(u32)` values; `Sock` equality is by the
wrapped integer, so we model each component directly as a `Nat`.  The three
components are the `(start, mid, end)` positions of one edge signature. -/
structure Socket where
  s0 : Nat
  s1 : Nat
  s2 : Nat
deriving DecidableEq

/-- `struct TileConfig { image: String, sockets: (Socket, Socket, Socket, Socket) }`.
The four sockets are, in tuple order `.0 .1 .2 .3`: top, right, bottom, left.
The source's manual `PartialEq` compares only `image`; its derived `Hash`
hashes every field. -/
structure TileConfig where
  image : String
  sockTop : Socket
  sockRight : Socket
  sockBottom : Socket
  sockLeft : Socket
deriving DecidableEq

/-- The source's `PartialEq for TileConfig`: equality by `image` alone. -/
def imageEq (a b : TileConfig) : Bool := a.image == b.image

/-- `struct Tileset { size: u32, tiles: Vec<TileConfig> }`. -/
structure Tileset where
  size : Nat
  tiles : List TileConfig
deriving DecidableEq

/-- `struct Options` (all fields optional). -/
structure Options where
  width : Option Nat
  height : Option Nat
  framerate : Option Nat
  seed : Option Nat
deriving DecidableEq

/-- `struct Settings` (resolved configuration stored in the `Grid`). -/
structure Settings where
  width : Nat
  height : Nat
  framerate : Option Nat
  seed : Option Nat
deriving DecidableEq

/-- Models `HashSet::<&TileConfig>::from_iter` under the source's
inconsistent `Hash`/`Eq` pair: the derived `Hash` covers the `image` and all
four sockets, while `Eq` compares only `image`.  An element is dropped as a
duplicate only when an already-present entry agrees with it by hash and by
`Eq`, i.e. (hash collisions between structurally distinct values aside) only
on full structural equality.  Iteration order of the set is modelled as
insertion order. -/
def hashsetFromIter (l : List TileConfig) : List TileConfig :=
  l.foldl (fun acc t => if acc.contains t then acc else acc ++ [t]) []

/-- `struct Cell` — its one field is the possibility set.  The `HashSet` is
modelled as the list of its (pairwise structurally distinct) entries. -/
structure Cell where
  possibilities : List TileConfig
deriving DecidableEq

/-- `Cell::new`: the possibility set starts as the set of all catalog tiles. -/
def Cell.new (tileset : Tileset) : Cell :=
  ⟨hashsetFromIter tileset.tiles⟩

/-- `Cell::entropy`: `self.possibilities.len() - 1` on `usize`; the
subtraction wraps modulo `2^64` when the set is empty (release-mode Rust
semantics of unsigned overflow). -/
def Cell.entropy (c : Cell) : Nat :=
  (c.possibilities.length + (USIZE - 1)) % USIZE

/-- `Cell::is_collapsed`: `self.entropy() == 0`. -/
def Cell.is_collapsed (c : Cell) : Bool := c.entropy == 0

/-- `Cell::connects_to`: picks the facing socket pair for the given edge
(`Top ↦ (a.0, b.2)`, `Right ↦ (a.1, b.3)`, `Bottom ↦ (a.2, b.0)`,
`Left ↦ (a.3, b.1)`) and tests
`start == other_end && mid == other_mid && end == other_start`. -/
def connects_to (config other : TileConfig) (edge : Edge) : Bool :=
  let p := match edge with
    | Edge.Top => (config.sockTop, other.sockBottom)
    | Edge.Right => (config.sockRight, other.sockLeft)
    | Edge.Bottom => (config.sockBottom, other.sockTop)
    | Edge.Left => (config.sockLeft, other.sockRight)
  (p.1.s0 == p.2.s2) && (p.1.s1 == p.2.s1) && (p.1.s2 == p.2.s0)

/-- `Cell::constrain`: a no-op returning `false` on a collapsed cell;
otherwise collects the `unreachables` (possibilities with no compatible
candidate in the neighbor's current set), removes each of them from the set,
and returns whether `unreachables.len() > 0`. -/
def Cell.constrain (c : Cell) (other : Cell) (edge : Edge) : Cell × Bool :=
  if c.is_collapsed then (c, false)
  else
    let unreachables : List TileConfig :=
      c.possibilities.filter
        (fun p => ! other.possibilities.any (fun q => connects_to p q edge))
    (⟨unreachables.foldl (fun acc u => acc.erase u) c.possibilities⟩,
      decide (0 < unreachables.length))

/-- `Cell::collapse`: chooses one element of the possibility set at random
and replaces the set by that singleton.  The random draw of
`SliceRandom::choose` is modelled by an oracle `k : Nat` reduced modulo the
set's size; on an empty set `choose` yields `None` and the source's
`.unwrap()` panics, modelled as `none`. -/
def Cell.collapse (c : Cell) (k : Nat) : Option Cell :=
  match c.possibilities[k % c.possibilities.length]? with
  | none => none
  | some t => some ⟨[t]⟩

/-- `struct Grid`. -/
structure Grid where
  tileset : Tileset
  options : Settings
  cells : List (List Cell)
  finished : Bool
deriving DecidableEq

/-- `Grid::new`: `options.height` rows of `options.width` fresh cells each
(the construction loop pushes an identical `Cell::new(&tileset)` into every
slot). -/
def Grid.new (tileset : Tileset) (options : Settings) : Grid :=
  { tileset := tileset
    options := options
    cells := List.replicate options.height (List.replicate options.width (Cell.new tileset))
    finished := false }

/-- `Grid::get`: `self.cells.get_mut(y)?.get_mut(x)`. -/
def Grid.get (g : Grid) (x y : Nat) : Option Cell :=
  match g.cells[y]? with
  | none => none
  | some row => row[x]?

/-- Writing back `self.cells[y][x] = cell`; out-of-range coordinates leave
the grid unchanged (they never occur in the source's sweeps). -/
def Grid.setCell (g : Grid) (x y : Nat) (c : Cell) : Grid :=
  { g with cells := g.cells.set y ((g.cells[y]?.getD []).set x c) }

/-- One `if let Some(nb) = ... { cell.constrain(&nb, edge) }` block of the
propagation sweep: constrain against the neighbor when it exists. -/
def constrainStep (c : Cell) (nb : Option Cell) (e : Edge) : Cell × Bool :=
  match nb with
  | some n => c.constrain n e
  | none => (c, false)

/-- The body of `Grid::propagate`'s inner double loop at one position: clone
`self.cells[y][x]`, constrain it against the four neighbors (top, right,
bottom, left, in source order, each read from the live grid), write it back,
and report whether any of the four `constrain` calls returned `true`.  The
neighbor guards are the source's `y > 0`, `x < width - 1`, `y < height - 1`,
`x > 0`; the `width - 1` and `height - 1` are `usize` subtractions that are
only ever evaluated with `width, height ≥ 1` (the loops are empty
otherwise), where truncated `Nat` subtraction agrees with them. -/
def Grid.processCell (g : Grid) (x y : Nat) : Grid × Bool :=
  let c0 := (g.get x y).getD ⟨[]⟩
  let r1 := constrainStep c0 (if 0 < y then g.get x (y - 1) else none) Edge.Top
  let r2 := constrainStep r1.1
    (if x < g.options.width - 1 then g.get (x + 1) y else none) Edge.Right
  let r3 := constrainStep r2.1
    (if y < g.options.height - 1 then g.get x (y + 1) else none) Edge.Bottom
  let r4 := constrainStep r3.1 (if 0 < x then g.get (x - 1) y else none) Edge.Left
  (g.setCell x y r4.1, r1.2 || r2.2 || r3.2 || r4.2)

/-- One full row-major sweep of `Grid::propagate`'s `loop` body, returning
the updated grid and the sweep's accumulated `constrained` flag. -/
def Grid.sweep (g : Grid) : Grid × Bool :=
  (List.range g.options.height).foldl
    (fun acc y =>
      (List.range g.options.width).foldl
        (fun acc x =>
          let r := Grid.processCell acc.1 x y
          (r.1, acc.2 || r.2))
        acc)
    (g, false)

/-- Total number of possibilities held across the whole grid; the measure
that every constraining sweep strictly decreases. -/
def rowLen (row : List Cell) : Nat :=
  (row.map (fun c => c.possibilities.length)).sum

/-- Sum of `rowLen` over all rows. -/
def Grid.totalLen (g : Grid) : Nat := (g.cells.map rowLen).sum

/-- Fuelled unfolding of `Grid::propagate`'s `loop { ...; if !constrained { break } }`. -/
def Grid.propagateAux : Nat → Grid → Grid
  | 0, g => g
  | fuel + 1, g =>
    let r := g.sweep
    if r.2 then Grid.propagateAux fuel r.1 else r.1

/-- `Grid::propagate`.  The fuel `totalLen g + 1` always suffices: every
iteration whose sweep reports `constrained` strictly decreases `totalLen`
(`propagateAux_fixed` below proves the resulting state is a fixed point). -/
def Grid.propagate (g : Grid) : Grid :=
  Grid.propagateAux (g.totalLen + 1) g

/-- The inner `for (x, cell) in row.iter().enumerate()` loop of
`Grid::next_lowest_entropy`, threading the `(cell_x, cell_y, entropy)`
accumulator: skip collapsed cells, record `(x, y, e)` when `e < entropy`. -/
def scanRow (y : Nat) : Nat → List Cell → Nat × Nat × Nat → Nat × Nat × Nat
  | _, [], acc => acc
  | x, cell :: rest, acc =>
    if cell.is_collapsed then scanRow y (x + 1) rest acc
    else
      let e := cell.entropy
      if e < acc.2.2 then scanRow y (x + 1) rest (x, y, e)
      else scanRow y (x + 1) rest acc

/-- The outer `for (y, row) in self.cells.iter().enumerate()` loop. -/
def scanRows : Nat → List (List Cell) → Nat × Nat × Nat → Nat × Nat × Nat
  | _, [], acc => acc
  | y, row :: rest, acc => scanRows (y + 1) rest (scanRow y 0 row acc)

/-- The `(cell_x, cell_y, entropy)` state of `Grid::next_lowest_entropy`
after its scan, started from `(0, 0, self.tileset.tiles.len())`. -/
def Grid.nextCoords (g : Grid) : Nat × Nat × Nat :=
  scanRows 0 g.cells (0, 0, g.tileset.tiles.length)

/-- `Grid::next_lowest_entropy`: `self.get(cell_x, cell_y)` at the scan's
final coordinates. -/
def Grid.next_lowest_entropy (g : Grid) : Option Cell :=
  g.get g.nextCoords.1 g.nextCoords.2.1

/-- `Grid::step` with the collapse oracle `k`.  `none` models a panic:
either the `next_lowest_entropy().unwrap()` (empty grid) or the `unwrap`
inside `collapse` (empty possibility set chosen). -/
def Grid.step (g : Grid) (k : Nat) : Option Grid :=
  let r := g.nextCoords
  match g.get r.1 r.2.1 with
  | none => none
  | some next =>
    if next.is_collapsed then some { g with finished := true }
    else
      match next.collapse k with
      | none => none
      | some c => some ((g.setCell r.1 r.2.1 c).propagate)

/-- Repeated `step()` calls, the n-th call drawing `rand n` from the random
oracle; a panic (`none`) is final. -/
def Grid.steps (g : Grid) (rand : Nat → Nat) : Nat → Option Grid
  | 0 => some g
  | n + 1 =>
    match g.steps rand n with
    | none => none
    | some g' => g'.step (rand n)

/-- `struct Model`. -/
structure Model where
  tileset : Tileset
  grid : Grid
deriving DecidableEq

/-- `const DEFAULT_WIDTH`. -/
def DEFAULT_WIDTH : Nat := 10

/-- `const DEFAULT_HEIGHT`. -/
def DEFAULT_HEIGHT : Nat := 10

/-- `Model::new`: resolves the options into `Settings` — note the source
hardcodes `framerate: None, seed: None`, discarding both option fields —
and builds a fresh grid. -/
def Model.new (tileset : Tileset) (options : Options) : Model :=
  { tileset := tileset
    grid := Grid.new tileset
      { width := options.width.getD DEFAULT_WIDTH
        height := options.height.getD DEFAULT_HEIGHT
        framerate := none
        seed := none } }

/-- The mirror-match rule of spec §3 on two facing edge signatures:
`A.start == B.end ∧ A.mid == B.mid ∧ A.end == B.start`. -/
def mirrorMatch (s o : Socket) : Bool :=
  (s.s0 == o.s2) && (s.s1 == o.s1) && (s.s2 == o.s0)

/-- Folding a sequence of `constrain` calls over one cell (used to state
the spec's monotonicity property "after any number of constrain calls"). -/
def constrainMany (c : Cell) (calls : List (Cell × Edge)) : Cell :=
  calls.foldl (fun c p => (c.constrain p.1 p.2).1) c

/-- Structural well-formedness of a grid: the cell array has exactly
`options.height` rows of `options.width` cells each (true of every grid the
source ever builds). -/
def Grid.WF (g : Grid) : Prop :=
  g.cells.length = g.options.height ∧ ∀ row ∈ g.cells, row.length = g.options.width

/-- Every possibility set is bounded by the catalog size. -/
def Grid.MaxLen (g : Grid) : Prop :=
  ∀ row ∈ g.cells, ∀ c ∈ row, c.possibilities.length ≤ g.tileset.tiles.length

/-- No cell is in the contradiction state (empty possibility set). -/
def Grid.NoEmpty (g : Grid) : Prop :=
  ∀ row ∈ g.cells, ∀ c ∈ row, c.possibilities ≠ []

/-- Number of collapsed cells in one row. -/
def rowCollapsed (row : List Cell) : Nat :=
  (row.map (fun c => if c.is_collapsed then 1 else 0)).sum

/-- Number of collapsed cells in the grid. -/
def Grid.collapsedCount (g : Grid) : Nat := (g.cells.map rowCollapsed).sum

instance (g : Grid) : Decidable g.WF :=
  decidable_of_iff
    (g.cells.length = g.options.height ∧ ∀ row ∈ g.cells, row.length = g.options.width)
    Iff.rfl

instance (g : Grid) : Decidable g.MaxLen :=
  decidable_of_iff
    (∀ row ∈ g.cells, ∀ c ∈ row, c.possibilities.length ≤ g.tileset.tiles.length)
    Iff.rfl

instance (g : Grid) : Decidable g.NoEmpty :=
  decidable_of_iff (∀ row ∈ g.cells, ∀ c ∈ row, c.possibilities ≠ []) Iff.rfl

instance decidableForallOfSome {p : Grid → Prop} [DecidablePred p] :
    (o : Option Grid) → Decidable (∀ g, o = some g → p g)
  | none => isTrue fun _ h => Option.noConfusion h
  | some g0 =>
    if h : p g0 then isTrue fun g hg => by
      cases hg
      exact h
    else isFalse fun hall => h (hall g0 rfl)

/-! ### Concrete inputs used by the witnesses and the counterexample -/

/-- A socket every tile edge shares, making all tiles mutually compatible. -/
def sockEx : Socket := ⟨0, 0, 0⟩

def tcA : TileConfig := ⟨"a", sockEx, sockEx, sockEx, sockEx⟩

def tcB : TileConfig := ⟨"b", sockEx, sockEx, sockEx, sockEx⟩

/-- A two-tile catalog whose tiles never constrain each other. -/
def tsEx : Tileset := ⟨16, [tcA, tcB]⟩

/-- A fresh 1×1 grid over `tsEx`. -/
def gEx : Grid := Grid.new tsEx ⟨1, 1, none, none⟩

/-- A degenerate zero-width grid. -/
def gDeg : Grid := Grid.new tsEx ⟨0, 3, none, none⟩

/-- A fixed random oracle. -/
def randEx : Nat → Nat := fun _ => 0

/-- Two catalog entries sharing one image reference but with different edge
signatures (the input that exposes the `Hash`/`Eq` inconsistency). -/
def tcDupA : TileConfig := ⟨"dup", ⟨0, 0, 0⟩, ⟨0, 0, 0⟩, ⟨0, 0, 0⟩, ⟨0, 0, 0⟩⟩

def tcDupB : TileConfig := ⟨"dup", ⟨1, 1, 1⟩, ⟨1, 1, 1⟩, ⟨1, 1, 1⟩, ⟨1, 1, 1⟩⟩

def tsDup : Tileset := ⟨16, [tcDupA, tcDupB]⟩

/-- Options differing only in framerate and seed. -/
def o1W : Options := ⟨some 3, some 4, some 60, some 42⟩

def o2W : Options := ⟨some 3, some 4, none, none⟩

/-! ### List helpers -/

theorem set_self_of_getElem? {α : Type} {l : List α} {n : Nat} {a : α}
    (h : l[n]? = some a) : l.set n a = l := by
  induction l generalizing n with
  | nil => simp at h
  | cons x xs ih =>
    cases n with
    | zero => simp at h; simp [List.set, h]
    | succ m => simp at h; simp [List.set, ih h]

theorem sum_map_set {α : Type} (f : α → Nat) {l : List α} {n : Nat} {a : α}
    (b : α) (h : l[n]? = some a) :
    ((l.set n b).map f).sum + f a = (l.map f).sum + f b := by
  induction l generalizing n with
  | nil => simp at h
  | cons x xs ih =>
    cases n with
    | zero =>
      simp only [List.getElem?_cons_zero, Option.some.injEq] at h
      subst h
      show ((b :: xs).map f).sum + f x = ((x :: xs).map f).sum + f b
      simp only [List.map_cons, List.sum_cons]
      omega
    | succ m =>
      simp only [List.getElem?_cons_succ] at h
      have := ih h
      show ((x :: xs.set m b).map f).sum + f a = ((x :: xs).map f).sum + f b
      simp only [List.map_cons, List.sum_cons]
      omega

theorem sum_map_le_of_le_one {α : Type} (f : α → Nat) (l : List α)
    (h : ∀ x ∈ l, f x ≤ 1) : (l.map f).sum ≤ l.length := by
  induction l with
  | nil => simp
  | cons x xs ih =>
    simp only [List.map_cons, List.sum_cons, List.length_cons]
    have hx := h x (by simp)
    have := ih (fun y hy => h y (by simp [hy]))
    omega

theorem foldl_erase_length_le (us l : List TileConfig) :
    (us.foldl (fun acc u => acc.erase u) l).length ≤ l.length := by
  induction us generalizing l with
  | nil => simp
  | cons u us ih =>
    simp only [List.foldl_cons]
    exact le_trans (ih (l.erase u)) (List.length_erase_le u l)

theorem foldl_erase_filter {l : List TileConfig} (p : TileConfig → Bool)
    (hnd : l.Nodup) :
    ((l.filter fun a => ! p a).foldl (fun acc u => acc.erase u) l) =
      l.filter p := by
  suffices h : ∀ us l : List TileConfig, l.Nodup →
      us.foldl (fun acc u => acc.erase u) l = l.filter (fun a => ! us.contains a) by
    rw [h _ _ hnd]
    apply List.filter_congr
    intro x hx
    simp [List.elem_eq_mem, hx]
  intro us
  induction us with
  | nil => intro l _; simp
  | cons u us ih =>
    intro l hl
    simp only [List.foldl_cons]
    rw [ih _ (hl.erase u), hl.erase_eq_filter u, List.filter_filter]
    apply List.filter_congr
    intro x _
    simp only [List.contains_cons, Bool.not_or, bne]
    cases hxu : x == u <;> cases hxc : us.contains x <;> simp [hxu, hxc]

/-! ### Cell.constrain lemmas -/

theorem Cell.constrain_collapsed {c : Cell} (o : Cell) (e : Edge)
    (h : c.is_collapsed = true) : c.constrain o e = (c, false) := by
  simp [Cell.constrain, h]

theorem Cell.constrain_fst_length_le (c o : Cell) (e : Edge) :
    (c.constrain o e).1.possibilities.length ≤ c.possibilities.length := by
  unfold Cell.constrain
  by_cases h : c.is_collapsed <;> simp [h]
  exact foldl_erase_length_le _ _

theorem Cell.constrain_snd_lt {c : Cell} {o : Cell} {e : Edge}
    (h : (c.constrain o e).2 = true) :
    (c.constrain o e).1.possibilities.length < c.possibilities.length := by
  by_cases hc : c.is_collapsed
  · rw [Cell.constrain_collapsed o e hc] at h; simp at h
  · have hfst : (c.constrain o e).1.possibilities =
        (c.possibilities.filter fun p =>
            ! o.possibilities.any fun q => connects_to p q e).foldl
          (fun acc u => acc.erase u) c.possibilities := by
      simp [Cell.constrain, hc]
    have hsnd : (c.constrain o e).2 =
        decide (0 < (c.possibilities.filter fun p =>
          ! o.possibilities.any fun q => connects_to p q e).length) := by
      simp [Cell.constrain, hc]
    rw [hsnd, decide_eq_true_eq] at h
    rw [hfst]
    have hmemf : ∀ t, t ∈ (c.possibilities.filter fun p =>
        ! o.possibilities.any fun q => connects_to p q e) → t ∈ c.possibilities :=
      fun t ht => List.mem_of_mem_filter ht
    generalize hL : (c.possibilities.filter fun p =>
        ! o.possibilities.any fun q => connects_to p q e) = L at h hmemf ⊢
    cases L with
    | nil => simp at h
    | cons u us =>
      simp only [List.foldl_cons]
      have hmem : u ∈ c.possibilities := hmemf u (by simp)
      have h1 : (c.possibilities.erase u).length = c.possibilities.length - 1 :=
        List.length_erase_of_mem hmem
      have h2 := foldl_erase_length_le us (c.possibilities.erase u)
      have h3 : 1 ≤ c.possibilities.length := List.length_pos_of_mem hmem
      omega

theorem Cell.constrain_snd_false {c : Cell} {o : Cell} {e : Edge}
    (h : (c.constrain o e).2 = false) : (c.constrain o e).1 = c := by
  unfold Cell.constrain at h ⊢
  by_cases hc : c.is_collapsed
  · simp [hc]
  · simp only [hc, Bool.false_eq_true, if_false, decide_eq_false_iff_not, Nat.not_lt,
      Nat.le_zero, List.length_eq_zero] at h
    simp [h]

theorem Cell.constrain_preserves_collapsed {c : Cell} (o : Cell) (e : Edge)
    (h : c.is_collapsed = true) : (c.constrain o e).1 = c := by
  rw [Cell.constrain_collapsed o e h]

/-! ### constrainStep lemmas -/

theorem constrainStep_some (c n : Cell) (e : Edge) :
    constrainStep c (some n) e = c.constrain n e := rfl

theorem constrainStep_none (c : Cell) (e : Edge) :
    constrainStep c none e = (c, false) := rfl

theorem constrainStep_fst_length_le (c : Cell) (nb : Option Cell) (e : Edge) :
    (constrainStep c nb e).1.possibilities.length ≤ c.possibilities.length := by
  cases nb with
  | none => rw [constrainStep_none]
  | some n => rw [constrainStep_some]; exact Cell.constrain_fst_length_le c n e

theorem constrainStep_snd_lt {c : Cell} {nb : Option Cell} {e : Edge}
    (h : (constrainStep c nb e).2 = true) :
    (constrainStep c nb e).1.possibilities.length < c.possibilities.length := by
  cases nb with
  | none => rw [constrainStep_none] at h; simp at h
  | some n =>
    rw [constrainStep_some] at h ⊢
    exact Cell.constrain_snd_lt h

theorem constrainStep_snd_false {c : Cell} {nb : Option Cell} {e : Edge}
    (h : (constrainStep c nb e).2 = false) : (constrainStep c nb e).1 = c := by
  cases nb with
  | none => rw [constrainStep_none]
  | some n =>
    rw [constrainStep_some] at h ⊢
    exact Cell.constrain_snd_false h

theorem constrainStep_collapsed {c : Cell} (nb : Option Cell) (e : Edge)
    (h : c.is_collapsed = true) : constrainStep c nb e = (c, false) := by
  cases nb with
  | none => rw [constrainStep_none]
  | some n => rw [constrainStep_some]; exact Cell.constrain_collapsed n e h

/-! ### Grid.setCell and measure lemmas -/

theorem Grid.get_eq (g : Grid) (x y : Nat) :
    g.get x y = (g.cells[y]?.bind fun row => row[x]?) := by
  unfold Grid.get
  cases g.cells[y]? <;> rfl

theorem Grid.get_some {g : Grid} {x y : Nat} {c : Cell} (h : g.get x y = some c) :
    ∃ row, g.cells[y]? = some row ∧ row[x]? = some c := by
  rw [Grid.get_eq] at h
  cases hy : g.cells[y]? with
  | none => rw [hy] at h; simp at h
  | some row => rw [hy] at h; exact ⟨row, rfl, h⟩

theorem Grid.setCell_tileset (g : Grid) (x y : Nat) (c : Cell) :
    (g.setCell x y c).tileset = g.tileset := rfl

theorem Grid.setCell_options (g : Grid) (x y : Nat) (c : Cell) :
    (g.setCell x y c).options = g.options := rfl

theorem Grid.setCell_finished (g : Grid) (x y : Nat) (c : Cell) :
    (g.setCell x y c).finished = g.finished := rfl

theorem Grid.setCell_oob {g : Grid} {x y : Nat} (c : Cell) (h : g.get x y = none) :
    g.setCell x y c = g := by
  rw [Grid.get_eq] at h
  unfold Grid.setCell
  cases hy : g.cells[y]? with
  | none =>
    have hlen : g.cells.length ≤ y := List.getElem?_eq_none_iff.mp hy
    rw [List.set_eq_of_length_le hlen]
  | some row =>
    rw [hy] at h
    have hxn : row[x]? = none := h
    have hx : row.length ≤ x := List.getElem?_eq_none_iff.mp hxn
    show { g with cells := g.cells.set y (((some row).getD []).set x c) } = g
    simp only [Option.getD_some]
    rw [List.set_eq_of_length_le hx, set_self_of_getElem? hy]

theorem Grid.setCell_self {g : Grid} {x y : Nat} {c : Cell} (h : g.get x y = some c) :
    g.setCell x y c = g := by
  obtain ⟨row, hy, hx⟩ := Grid.get_some h
  unfold Grid.setCell
  rw [hy]
  simp only [Option.getD_some]
  rw [set_self_of_getElem? hx, set_self_of_getElem? hy]

theorem Grid.totalLen_setCell {g : Grid} {x y : Nat} {cOld : Cell} (c : Cell)
    (h : g.get x y = some cOld) :
    (g.setCell x y c).totalLen + cOld.possibilities.length =
      g.totalLen + c.possibilities.length := by
  obtain ⟨row, hy, hx⟩ := Grid.get_some h
  have hcells : (g.setCell x y c).cells = g.cells.set y (row.set x c) := by
    unfold Grid.setCell
    rw [hy]
    rfl
  have h1 : ((g.cells.set y (row.set x c)).map rowLen).sum + rowLen row =
      (g.cells.map rowLen).sum + rowLen (row.set x c) := sum_map_set rowLen _ hy
  have h2 : rowLen (row.set x c) + cOld.possibilities.length =
      rowLen row + c.possibilities.length :=
    sum_map_set (fun cc : Cell => cc.possibilities.length) c hx
  show ((g.setCell x y c).cells.map rowLen).sum + cOld.possibilities.length =
      (g.cells.map rowLen).sum + c.possibilities.length
  rw [hcells]
  omega

theorem Grid.collapsedCount_setCell {g : Grid} {x y : Nat} {cOld : Cell} (c : Cell)
    (h : g.get x y = some cOld) :
    (g.setCell x y c).collapsedCount + (if cOld.is_collapsed then 1 else 0) =
      g.collapsedCount + (if c.is_collapsed then 1 else 0) := by
  obtain ⟨row, hy, hx⟩ := Grid.get_some h
  have hcells : (g.setCell x y c).cells = g.cells.set y (row.set x c) := by
    unfold Grid.setCell
    rw [hy]
    rfl
  have h1 : ((g.cells.set y (row.set x c)).map rowCollapsed).sum + rowCollapsed row =
      (g.cells.map rowCollapsed).sum + rowCollapsed (row.set x c) :=
    sum_map_set rowCollapsed _ hy
  have h2 : rowCollapsed (row.set x c) + (if cOld.is_collapsed then 1 else 0) =
      rowCollapsed row + (if c.is_collapsed then 1 else 0) :=
    sum_map_set (fun cc : Cell => if cc.is_collapsed then 1 else 0) c hx
  show ((g.setCell x y c).cells.map rowCollapsed).sum + (if cOld.is_collapsed then 1 else 0) =
      (g.cells.map rowCollapsed).sum + (if c.is_collapsed then 1 else 0)
  rw [hcells]
  omega

theorem Grid.WF_setCell {g : Grid} {x y : Nat} (c : Cell) (h : g.WF) :
    (g.setCell x y c).WF := by
  obtain ⟨hl, hr⟩ := h
  constructor
  · show (g.cells.set y _).length = g.options.height
    rw [List.length_set]; exact hl
  · intro row hrow
    show row.length = g.options.width
    simp only [Grid.setCell] at hrow
    by_cases hy : y < g.cells.length
    · rcases List.mem_or_eq_of_mem_set hrow with h1 | h1
      · exact hr row h1
      · subst h1
        have hysome : g.cells[y]? = some g.cells[y] := List.getElem?_eq_some.mpr ⟨hy, rfl⟩
        rw [hysome]
        simp only [Option.getD_some]
        rw [List.length_set]
        exact hr g.cells[y] (List.getElem_mem hy)
    · rw [List.set_eq_of_length_le (Nat.le_of_not_lt hy)] at hrow
      exact hr row hrow

theorem Grid.MaxLen_setCell {g : Grid} {x y : Nat} {c : Cell} (h : g.MaxLen)
    (hc : c.possibilities.length ≤ g.tileset.tiles.length) :
    (g.setCell x y c).MaxLen := by
  intro row hrow c' hc'
  show c'.possibilities.length ≤ g.tileset.tiles.length
  simp only [Grid.setCell] at hrow
  by_cases hy : y < g.cells.length
  · rcases List.mem_or_eq_of_mem_set hrow with h1 | h1
    · exact h row h1 c' hc'
    · subst h1
      have hysome : g.cells[y]? = some g.cells[y] := List.getElem?_eq_some.mpr ⟨hy, rfl⟩
      rw [hysome] at hc'
      simp only [Option.getD_some] at hc'
      rcases List.mem_or_eq_of_mem_set hc' with h2 | h2
      · exact h g.cells[y] (List.getElem_mem hy) c' h2
      · subst h2; exact hc
  · rw [List.set_eq_of_length_le (Nat.le_of_not_lt hy)] at hrow
    exact h row hrow c' hc'

/-! ### Grid.processCell lemmas -/

theorem Grid.processCell_spec (g : Grid) (x y : Nat) :
    ∃ c4 : Cell,
      (g.processCell x y).1 = g.setCell x y c4 ∧
      c4.possibilities.length ≤ ((g.get x y).getD ⟨[]⟩).possibilities.length ∧
      ((g.processCell x y).2 = true →
        c4.possibilities.length < ((g.get x y).getD ⟨[]⟩).possibilities.length) ∧
      ((g.processCell x y).2 = false → c4 = (g.get x y).getD ⟨[]⟩) ∧
      (((g.get x y).getD ⟨[]⟩).is_collapsed = true →
        c4 = (g.get x y).getD ⟨[]⟩ ∧ (g.processCell x y).2 = false) := by
  set c0 := (g.get x y).getD ⟨[]⟩ with hc0
  set r1 := constrainStep c0 (if 0 < y then g.get x (y - 1) else none) Edge.Top with hr1
  set r2 := constrainStep r1.1
    (if x < g.options.width - 1 then g.get (x + 1) y else none) Edge.Right with hr2
  set r3 := constrainStep r2.1
    (if y < g.options.height - 1 then g.get x (y + 1) else none) Edge.Bottom with hr3
  set r4 := constrainStep r3.1 (if 0 < x then g.get (x - 1) y else none) Edge.Left with hr4
  have hfst : (g.processCell x y).1 = g.setCell x y r4.1 := rfl
  have hsnd : (g.processCell x y).2 = (r1.2 || r2.2 || r3.2 || r4.2) := rfl
  have l1 := constrainStep_fst_length_le c0 (if 0 < y then g.get x (y - 1) else none) Edge.Top
  have l2 := constrainStep_fst_length_le r1.1
    (if x < g.options.width - 1 then g.get (x + 1) y else none) Edge.Right
  have l3 := constrainStep_fst_length_le r2.1
    (if y < g.options.height - 1 then g.get x (y + 1) else none) Edge.Bottom
  have l4 := constrainStep_fst_length_le r3.1 (if 0 < x then g.get (x - 1) y else none) Edge.Left
  rw [← hr1] at l1
  rw [← hr2] at l2
  rw [← hr3] at l3
  rw [← hr4] at l4
  refine ⟨r4.1, hfst, by omega, ?_, ?_, ?_⟩
  · intro h
    rw [hsnd] at h
    simp only [Bool.or_eq_true] at h
    rcases h with ((h | h) | h) | h
    · have := constrainStep_snd_lt (hr1 ▸ h)
      rw [← hr1] at this
      omega
    · have := constrainStep_snd_lt (hr2 ▸ h)
      rw [← hr2] at this
      omega
    · have := constrainStep_snd_lt (hr3 ▸ h)
      rw [← hr3] at this
      omega
    · have := constrainStep_snd_lt (hr4 ▸ h)
      rw [← hr4] at this
      omega
  · intro h
    rw [hsnd] at h
    simp only [Bool.or_eq_false_iff] at h
    obtain ⟨⟨⟨h1, h2⟩, h3⟩, h4⟩ := h
    have e1 : r1.1 = c0 := by rw [hr1]; exact constrainStep_snd_false (hr1 ▸ h1)
    have e2 : r2.1 = r1.1 := by rw [hr2]; exact constrainStep_snd_false (hr2 ▸ h2)
    have e3 : r3.1 = r2.1 := by rw [hr3]; exact constrainStep_snd_false (hr3 ▸ h3)
    have e4 : r4.1 = r3.1 := by rw [hr4]; exact constrainStep_snd_false (hr4 ▸ h4)
    rw [e4, e3, e2, e1]
  · intro h
    have e1 : r1 = (c0, false) := by rw [hr1]; exact constrainStep_collapsed _ _ h
    have e2 : r2 = (c0, false) := by
      rw [hr2, e1]
      exact constrainStep_collapsed _ _ h
    have e3 : r3 = (c0, false) := by
      rw [hr3, e2]
      exact constrainStep_collapsed _ _ h
    have e4 : r4 = (c0, false) := by
      rw [hr4, e3]
      exact constrainStep_collapsed _ _ h
    refine ⟨by rw [e4], ?_⟩
    rw [hsnd, e1, e2, e3, e4]
    rfl

theorem Grid.processCell_fields (g : Grid) (x y : Nat) :
    (g.processCell x y).1.tileset = g.tileset ∧
    (g.processCell x y).1.options = g.options ∧
    (g.processCell x y).1.finished = g.finished := by
  obtain ⟨c4, hfst, -⟩ := g.processCell_spec x y
  rw [hfst]
  exact ⟨rfl, rfl, rfl⟩

theorem Grid.processCell_totalLen_le (g : Grid) (x y : Nat) :
    (g.processCell x y).1.totalLen ≤ g.totalLen := by
  obtain ⟨c4, hfst, hle, -, -, -⟩ := g.processCell_spec x y
  cases hget : g.get x y with
  | none =>
    rw [hfst, Grid.setCell_oob c4 hget]
  | some cOld =>
    rw [hget] at hle
    simp only [Option.getD_some] at hle
    have := Grid.totalLen_setCell c4 hget
    rw [hfst]
    omega

theorem Grid.processCell_totalLen_lt {g : Grid} {x y : Nat}
    (h : (g.processCell x y).2 = true) :
    (g.processCell x y).1.totalLen < g.totalLen := by
  obtain ⟨c4, hfst, hle, hlt, -, -⟩ := g.processCell_spec x y
  cases hget : g.get x y with
  | none =>
    rw [hget] at hlt
    have := hlt h
    simp only [Option.getD_none] at this
    simp at this
  | some cOld =>
    rw [hget] at hlt
    simp only [Option.getD_some] at hlt
    have := Grid.totalLen_setCell c4 hget
    have := hlt h
    rw [hfst]
    omega

theorem Grid.processCell_snd_false_eq {g : Grid} {x y : Nat}
    (h : (g.processCell x y).2 = false) : (g.processCell x y).1 = g := by
  obtain ⟨c4, hfst, -, -, hf, -⟩ := g.processCell_spec x y
  have hc4 := hf h
  cases hget : g.get x y with
  | none =>
    rw [hfst, Grid.setCell_oob c4 hget]
  | some cOld =>
    rw [hget] at hc4
    simp only [Option.getD_some] at hc4
    rw [hfst, hc4, Grid.setCell_self hget]

theorem Grid.processCell_collapsedCount_le (g : Grid) (x y : Nat) :
    g.collapsedCount ≤ (g.processCell x y).1.collapsedCount := by
  obtain ⟨c4, hfst, -, -, -, hcoll⟩ := g.processCell_spec x y
  cases hget : g.get x y with
  | none =>
    rw [hfst, Grid.setCell_oob c4 hget]
  | some cOld =>
    have hex := Grid.collapsedCount_setCell c4 hget
    rw [hfst]
    by_cases hc : cOld.is_collapsed
    · have := hcoll (by rw [hget]; exact hc)
      rw [hget] at this
      simp only [Option.getD_some] at this
      rw [this.1] at hex ⊢
      omega
    · have hc' : cOld.is_collapsed = false := by
        cases hco : cOld.is_collapsed
        · rfl
        · exact absurd hco hc
      rw [hc'] at hex
      simp only [Bool.false_eq_true, if_false] at hex
      omega

theorem Grid.processCell_WF {g : Grid} {x y : Nat} (h : g.WF) :
    (g.processCell x y).1.WF := by
  obtain ⟨c4, hfst, -⟩ := g.processCell_spec x y
  rw [hfst]
  exact Grid.WF_setCell c4 h

theorem Grid.processCell_MaxLen {g : Grid} {x y : Nat} (h : g.MaxLen) :
    (g.processCell x y).1.MaxLen := by
  obtain ⟨c4, hfst, hle, -, -, -⟩ := g.processCell_spec x y
  rw [hfst]
  cases hget : g.get x y with
  | none =>
    rw [Grid.setCell_oob c4 hget]
    exact h
  | some cOld =>
    rw [hget] at hle
    simp only [Option.getD_some] at hle
    obtain ⟨row, hy, hx⟩ := Grid.get_some hget
    have hrow : row ∈ g.cells := List.getElem?_mem hy
    have hcOld : cOld ∈ row := List.getElem?_mem hx
    exact Grid.MaxLen_setCell h (le_trans hle (h row hrow cOld hcOld))

/-! ### Grid.sweep lemmas

The two nested `foldl`s of `Grid.sweep` share one shape: a state
`Grid × Bool` stepped by a grid transformer that also reports a flag, the
flags accumulated by `||`.  `foldStep` abstracts that shape and `GoodStep`
the invariants every step of the sweep enjoys. -/

def foldStep {α : Type} (f : α → Grid → Grid × Bool) (l : List α)
    (acc : Grid × Bool) : Grid × Bool :=
  l.foldl (fun acc a => ((f a acc.1).1, acc.2 || (f a acc.1).2)) acc

def GoodStep (f : Grid → Grid × Bool) : Prop :=
  ∀ g : Grid,
    (f g).1.totalLen ≤ g.totalLen ∧
    ((f g).2 = true → (f g).1.totalLen < g.totalLen) ∧
    ((f g).2 = false → (f g).1 = g) ∧
    g.collapsedCount ≤ (f g).1.collapsedCount ∧
    (g.WF → (f g).1.WF) ∧
    (g.MaxLen → (f g).1.MaxLen) ∧
    (f g).1.tileset = g.tileset ∧ (f g).1.options = g.options ∧
    (f g).1.finished = g.finished

theorem processCell_good (x y : Nat) : GoodStep (fun g => g.processCell x y) := by
  intro g
  refine ⟨g.processCell_totalLen_le x y, fun h => Grid.processCell_totalLen_lt h,
    fun h => Grid.processCell_snd_false_eq h, g.processCell_collapsedCount_le x y,
    fun h => Grid.processCell_WF h, fun h => Grid.processCell_MaxLen h, ?_, ?_, ?_⟩
  · exact (g.processCell_fields x y).1
  · exact (g.processCell_fields x y).2.1
  · exact (g.processCell_fields x y).2.2

theorem foldStep_flag {α : Type} (f : α → Grid → Grid × Bool) (l : List α)
    (g : Grid) (b : Bool) :
    foldStep f l (g, b) =
      ((foldStep f l (g, false)).1, b || (foldStep f l (g, false)).2) := by
  induction l generalizing g b with
  | nil => simp [foldStep]
  | cons a l ih =>
    show foldStep f l ((f a g).1, b || (f a g).2) = _
    have h2 : foldStep f (a :: l) (g, false) =
        foldStep f l ((f a g).1, false || (f a g).2) := rfl
    rw [h2, Bool.false_or, ih _ (b || (f a g).2), ih _ ((f a g).2)]
    simp [Bool.or_assoc]

theorem foldStep_good {α : Type} (f : α → Grid → Grid × Bool)
    (hf : ∀ a, GoodStep (f a)) (l : List α) :
    GoodStep (fun g => foldStep f l (g, false)) := by
  induction l with
  | nil =>
    intro g
    dsimp only
    refine ⟨le_refl _, ?_, fun _ => rfl, le_refl _, id, id, rfl, rfl, rfl⟩
    intro h
    exact absurd h (by simp [foldStep])
  | cons a l ih =>
    intro g
    dsimp only
    have hstep : foldStep f (a :: l) (g, false) =
        foldStep f l ((f a g).1, (f a g).2) := rfl
    have hsplit : foldStep f (a :: l) (g, false) =
        ((foldStep f l ((f a g).1, false)).1,
          (f a g).2 || (foldStep f l ((f a g).1, false)).2) := by
      rw [hstep, foldStep_flag]
    obtain ⟨a1, a2, a3, a4, a5, a6, a7, a8, a9⟩ := hf a g
    obtain ⟨b1, b2, b3, b4, b5, b6, b7, b8, b9⟩ := ih (f a g).1
    simp only at b1 b2 b3 b4 b5 b6 b7 b8 b9
    refine ⟨?_, ?_, ?_, ?_, ?_, ?_, ?_, ?_, ?_⟩ <;> rw [hsplit]
    · exact le_trans b1 a1
    · intro h
      simp only [Bool.or_eq_true] at h
      rcases h with h | h
      · exact lt_of_le_of_lt b1 (a2 h)
      · exact lt_of_lt_of_le (b2 h) a1
    · intro h
      simp only [Bool.or_eq_false_iff] at h
      show (foldStep f l ((f a g).1, false)).1 = g
      rw [b3 h.2, a3 h.1]
    · exact le_trans a4 b4
    · exact fun h => b5 (a5 h)
    · exact fun h => b6 (a6 h)
    · rw [b7, a7]
    · rw [b8, a8]
    · rw [b9, a9]

theorem sweep_eq (g : Grid) :
    g.sweep = foldStep
      (fun y g' => foldStep (fun x g'' => g''.processCell x y)
        (List.range g.options.width) (g', false))
      (List.range g.options.height) (g, false) := by
  show (List.range g.options.height).foldl _ (g, false) =
    (List.range g.options.height).foldl _ (g, false)
  apply List.foldl_ext
  intro acc y _
  obtain ⟨gg, bb⟩ := acc
  exact foldStep_flag (fun x g'' => g''.processCell x y) (List.range g.options.width) gg bb

theorem sweep_good (g : Grid) :
    (g.sweep.1.totalLen ≤ g.totalLen) ∧
    (g.sweep.2 = true → g.sweep.1.totalLen < g.totalLen) ∧
    (g.sweep.2 = false → g.sweep.1 = g) ∧
    (g.collapsedCount ≤ g.sweep.1.collapsedCount) ∧
    (g.WF → g.sweep.1.WF) ∧
    (g.MaxLen → g.sweep.1.MaxLen) ∧
    g.sweep.1.tileset = g.tileset ∧ g.sweep.1.options = g.options ∧
    g.sweep.1.finished = g.finished := by
  have hgood := foldStep_good
    (fun y g' => foldStep (fun x g'' => g''.processCell x y)
      (List.range g.options.width) (g', false))
    (fun y => foldStep_good (fun x g'' => g''.processCell x y)
      (fun x => processCell_good x y) (List.range g.options.width))
    (List.range g.options.height) g
  simp only at hgood
  rw [← sweep_eq] at hgood
  exact hgood

/-! ### Grid.propagate lemmas -/

theorem propagateAux_succ (fuel : Nat) (g : Grid) :
    Grid.propagateAux (fuel + 1) g =
      if g.sweep.2 then Grid.propagateAux fuel g.sweep.1 else g.sweep.1 := rfl

theorem propagateAux_fixed (fuel : Nat) (g : Grid) (h : g.totalLen < fuel) :
    (Grid.propagateAux fuel g).sweep.2 = false := by
  induction fuel generalizing g with
  | zero => omega
  | succ fuel ih =>
    rw [propagateAux_succ]
    cases hs : g.sweep.2 with
    | false =>
      simp only [Bool.false_eq_true, if_false]
      rw [(sweep_good g).2.2.1 hs]
      exact hs
    | true =>
      simp only [if_true]
      have hlt := (sweep_good g).2.1 hs
      exact ih g.sweep.1 (by omega)

theorem propagateAux_bundle (fuel : Nat) (g : Grid) :
    g.collapsedCount ≤ (Grid.propagateAux fuel g).collapsedCount ∧
    (g.WF → (Grid.propagateAux fuel g).WF) ∧
    (g.MaxLen → (Grid.propagateAux fuel g).MaxLen) ∧
    (Grid.propagateAux fuel g).tileset = g.tileset ∧
    (Grid.propagateAux fuel g).options = g.options ∧
    (Grid.propagateAux fuel g).finished = g.finished := by
  induction fuel generalizing g with
  | zero => exact ⟨le_refl _, id, id, rfl, rfl, rfl⟩
  | succ fuel ih =>
    rw [propagateAux_succ]
    obtain ⟨s1, s2, s3, s4, s5, s6, s7, s8, s9⟩ := sweep_good g
    cases hs : g.sweep.2 with
    | false =>
      simp only [Bool.false_eq_true, if_false]
      exact ⟨s4, s5, s6, s7, s8, s9⟩
    | true =>
      simp only [if_true]
      obtain ⟨i1, i2, i3, i4, i5, i6⟩ := ih g.sweep.1
      refine ⟨le_trans s4 i1, fun h => i2 (s5 h), fun h => i3 (s6 h), ?_, ?_, ?_⟩
      · rw [i4, s7]
      · rw [i5, s8]
      · rw [i6, s9]

theorem Grid.propagate_sweep_false (g : Grid) : g.propagate.sweep.2 = false :=
  propagateAux_fixed _ g (Nat.lt_succ_self _)

theorem Grid.propagate_of_fixed {g : Grid} (h : g.sweep.2 = false) :
    g.propagate = g := by
  show Grid.propagateAux (g.totalLen + 1) g = g
  rw [propagateAux_succ, h]
  simp only [Bool.false_eq_true, if_false]
  exact (sweep_good g).2.2.1 h

theorem Grid.propagate_bundle (g : Grid) :
    g.collapsedCount ≤ g.propagate.collapsedCount ∧
    (g.WF → g.propagate.WF) ∧
    (g.MaxLen → g.propagate.MaxLen) ∧
    g.propagate.tileset = g.tileset ∧
    g.propagate.options = g.options ∧
    g.propagate.finished = g.finished :=
  propagateAux_bundle (g.totalLen + 1) g

/-! ### Entropy arithmetic -/

theorem entropy_eq {c : Cell} (h1 : c.possibilities ≠ [])
    (h2 : c.possibilities.length < USIZE) :
    c.entropy = c.possibilities.length - 1 := by
  have hlen : 0 < c.possibilities.length := List.length_pos.mpr h1
  unfold Cell.entropy USIZE at *
  omega

theorem entropy_empty {c : Cell} (h : c.possibilities = []) :
    c.entropy = USIZE - 1 := by
  unfold Cell.entropy USIZE
  rw [h]
  simp

theorem is_collapsed_iff {c : Cell} (h2 : c.possibilities.length < USIZE) :
    c.is_collapsed = true ↔ c.possibilities.length = 1 := by
  unfold Cell.is_collapsed Cell.entropy USIZE at *
  rw [Nat.beq_eq_true_eq]
  omega

theorem not_collapsed_of_big {c : Cell} (h2 : c.possibilities.length < USIZE)
    (h : 2 ≤ c.possibilities.length ∨ c.possibilities = []) :
    c.is_collapsed = false := by
  have hlen : c.possibilities.length ≠ 1 := by
    rcases h with h | h
    · omega
    · rw [h]; simp
  cases hc : c.is_collapsed
  · rfl
  · exact absurd ((is_collapsed_iff h2).mp hc) hlen

/-! ### Scan lemmas for next_lowest_entropy -/

theorem scanRow_nil (y x : Nat) (acc : Nat × Nat × Nat) :
    scanRow y x [] acc = acc := rfl

theorem scanRow_cons (y x : Nat) (c : Cell) (rest : List Cell)
    (acc : Nat × Nat × Nat) :
    scanRow y x (c :: rest) acc =
      if c.is_collapsed then scanRow y (x + 1) rest acc
      else if c.entropy < acc.2.2 then scanRow y (x + 1) rest (x, y, c.entropy)
      else scanRow y (x + 1) rest acc := rfl

theorem scanRow_acc_le (y : Nat) (row : List Cell) :
    ∀ (x : Nat) (acc : Nat × Nat × Nat), (scanRow y x row acc).2.2 ≤ acc.2.2 := by
  induction row with
  | nil => intro x acc; rw [scanRow_nil]
  | cons c rest ih =>
    intro x acc
    rw [scanRow_cons]
    by_cases hc : c.is_collapsed
    · simp only [hc, if_true]; exact ih (x + 1) acc
    · simp only [hc, Bool.false_eq_true, if_false]
      by_cases he : c.entropy < acc.2.2
      · simp only [he, if_true]
        exact le_trans (ih (x + 1) (x, y, c.entropy)) (le_of_lt he)
      · simp only [he, if_false]
        exact ih (x + 1) acc

theorem scanRow_min (y : Nat) (row : List Cell) :
    ∀ (x : Nat) (acc : Nat × Nat × Nat) (i : Nat) (c : Cell),
      row[i]? = some c → c.is_collapsed = false →
      (scanRow y x row acc).2.2 ≤ c.entropy := by
  induction row with
  | nil => intro x acc i c hi; simp at hi
  | cons c0 rest ih =>
    intro x acc i c hi hcol
    rw [scanRow_cons]
    cases i with
    | zero =>
      simp only [List.getElem?_cons_zero, Option.some.injEq] at hi
      subst hi
      simp only [hcol, Bool.false_eq_true, if_false]
      by_cases he : c0.entropy < acc.2.2
      · simp only [he, if_true]
        exact scanRow_acc_le y rest (x + 1) (x, y, c0.entropy)
      · simp only [he, if_false]
        exact le_trans (scanRow_acc_le y rest (x + 1) acc) (Nat.le_of_not_lt he)
    | succ j =>
      simp only [List.getElem?_cons_succ] at hi
      by_cases hc : c0.is_collapsed
      · simp only [hc, if_true]
        exact ih (x + 1) acc j c hi hcol
      · simp only [hc, Bool.false_eq_true, if_false]
        by_cases he : c0.entropy < acc.2.2
        · simp only [he, if_true]
          exact ih (x + 1) (x, y, c0.entropy) j c hi hcol
        · simp only [he, if_false]
          exact ih (x + 1) acc j c hi hcol

theorem scanRow_all_collapsed (y : Nat) (row : List Cell)
    (h : ∀ c ∈ row, c.is_collapsed = true) :
    ∀ (x : Nat) (acc : Nat × Nat × Nat), scanRow y x row acc = acc := by
  induction row with
  | nil => intro x acc; rw [scanRow_nil]
  | cons c rest ih =>
    intro x acc
    rw [scanRow_cons]
    simp only [h c (by simp), if_true]
    exact ih (fun c' hc' => h c' (by simp [hc'])) (x + 1) acc

theorem scanRow_char (y : Nat) (row : List Cell) :
    ∀ (x : Nat) (acc : Nat × Nat × Nat),
    (scanRow y x row acc = acc ∧
      ∀ (i : Nat) (c : Cell), row[i]? = some c → c.is_collapsed = false →
        acc.2.2 ≤ c.entropy)
    ∨ (∃ (i : Nat) (c : Cell), row[i]? = some c ∧ c.is_collapsed = false ∧
        scanRow y x row acc = (x + i, y, c.entropy) ∧ c.entropy < acc.2.2 ∧
        ∀ (j : Nat) (c' : Cell), j < i → row[j]? = some c' →
          c'.is_collapsed = false → c.entropy < c'.entropy) := by
  induction row with
  | nil =>
    intro x acc
    left
    refine ⟨scanRow_nil y x acc, ?_⟩
    intro i c hi
    simp at hi
  | cons c0 rest ih =>
    intro x acc
    rw [scanRow_cons]
    by_cases hc : c0.is_collapsed
    · simp only [hc, if_true]
      rcases ih (x + 1) acc with ⟨heq, hb⟩ | ⟨i, c, h1, h2, h3, h4, h5⟩
      · left
        refine ⟨heq, ?_⟩
        intro i c hi hcol
        cases i with
        | zero =>
          simp only [List.getElem?_cons_zero, Option.some.injEq] at hi
          subst hi
          rw [hc] at hcol
          exact absurd hcol (by simp)
        | succ j =>
          simp only [List.getElem?_cons_succ] at hi
          exact hb j c hi hcol
      · right
        have h1' : (c0 :: rest)[i + 1]? = some c := by
          rw [List.getElem?_cons_succ]
          exact h1
        have h3' : scanRow y (x + 1) rest acc = (x + (i + 1), y, c.entropy) := by
          have hx : x + 1 + i = x + (i + 1) := by omega
          rw [h3, hx]
        refine ⟨i + 1, c, h1', h2, h3', h4, ?_⟩
        intro j c' hj hc' hcol'
        cases j with
        | zero =>
          simp only [List.getElem?_cons_zero, Option.some.injEq] at hc'
          subst hc'
          rw [hc] at hcol'
          exact absurd hcol' (by simp)
        | succ j' =>
          simp only [List.getElem?_cons_succ] at hc'
          exact h5 j' c' (by omega) hc' hcol'
    · have hc' : c0.is_collapsed = false := by
        cases hcc : c0.is_collapsed
        · rfl
        · exact absurd hcc hc
      simp only [hc', Bool.false_eq_true, if_false]
      by_cases he : c0.entropy < acc.2.2
      · simp only [he, if_true]
        rcases ih (x + 1) (x, y, c0.entropy) with ⟨heq, hb⟩ | ⟨i, c, h1, h2, h3, h4, h5⟩
        · right
          have heq' : scanRow y (x + 1) rest (x, y, c0.entropy) =
              (x + 0, y, c0.entropy) := by
            rw [heq, Nat.add_zero]
          have h0 : (c0 :: rest)[0]? = some c0 := List.getElem?_cons_zero
          refine ⟨0, c0, h0, hc', heq', he, ?_⟩
          intro j c'' hj
          omega
        · right
          have h1' : (c0 :: rest)[i + 1]? = some c := by
            rw [List.getElem?_cons_succ]
            exact h1
          have h3' : scanRow y (x + 1) rest (x, y, c0.entropy) =
              (x + (i + 1), y, c.entropy) := by
            have hx : x + 1 + i = x + (i + 1) := by omega
            rw [h3, hx]
          refine ⟨i + 1, c, h1', h2, h3', lt_trans h4 he, ?_⟩
          intro j c'' hj hcj hcolj
          cases j with
          | zero =>
            simp only [List.getElem?_cons_zero, Option.some.injEq] at hcj
            subst hcj
            exact h4
          | succ j' =>
            simp only [List.getElem?_cons_succ] at hcj
            exact h5 j' c'' (by omega) hcj hcolj
      · simp only [he, if_false]
        rcases ih (x + 1) acc with ⟨heq, hb⟩ | ⟨i, c, h1, h2, h3, h4, h5⟩
        · left
          refine ⟨heq, ?_⟩
          intro i c hi hcol
          cases i with
          | zero =>
            simp only [List.getElem?_cons_zero, Option.some.injEq] at hi
            subst hi
            exact Nat.le_of_not_lt he
          | succ j =>
            simp only [List.getElem?_cons_succ] at hi
            exact hb j c hi hcol
        · right
          have h1' : (c0 :: rest)[i + 1]? = some c := by
            rw [List.getElem?_cons_succ]
            exact h1
          have h3' : scanRow y (x + 1) rest acc = (x + (i + 1), y, c.entropy) := by
            have hx : x + 1 + i = x + (i + 1) := by omega
            rw [h3, hx]
          refine ⟨i + 1, c, h1', h2, h3', h4, ?_⟩
          intro j c'' hj hcj hcolj
          cases j with
          | zero =>
            simp only [List.getElem?_cons_zero, Option.some.injEq] at hcj
            subst hcj
            exact lt_of_lt_of_le h4 (Nat.le_of_not_lt he)
          | succ j' =>
            simp only [List.getElem?_cons_succ] at hcj
            exact h5 j' c'' (by omega) hcj hcolj

theorem scanRows_nil (y : Nat) (acc : Nat × Nat × Nat) :
    scanRows y [] acc = acc := rfl

theorem scanRows_cons (y : Nat) (row : List Cell) (rest : List (List Cell))
    (acc : Nat × Nat × Nat) :
    scanRows y (row :: rest) acc = scanRows (y + 1) rest (scanRow y 0 row acc) := rfl

theorem scanRows_acc_le (rows : List (List Cell)) :
    ∀ (y : Nat) (acc : Nat × Nat × Nat), (scanRows y rows acc).2.2 ≤ acc.2.2 := by
  induction rows with
  | nil => intro y acc; rw [scanRows_nil]
  | cons row rest ih =>
    intro y acc
    rw [scanRows_cons]
    exact le_trans (ih (y + 1) (scanRow y 0 row acc)) (scanRow_acc_le y row 0 acc)

theorem scanRows_min (rows : List (List Cell)) :
    ∀ (y : Nat) (acc : Nat × Nat × Nat) (r : Nat) (row : List Cell) (i : Nat) (c : Cell),
      rows[r]? = some row → row[i]? = some c → c.is_collapsed = false →
      (scanRows y rows acc).2.2 ≤ c.entropy := by
  induction rows with
  | nil => intro y acc r row i c hr; simp at hr
  | cons row0 rest ih =>
    intro y acc r row i c hr hi hcol
    rw [scanRows_cons]
    cases r with
    | zero =>
      simp only [List.getElem?_cons_zero, Option.some.injEq] at hr
      subst hr
      exact le_trans (scanRows_acc_le rest (y + 1) (scanRow y 0 row0 acc))
        (scanRow_min y row0 0 acc i c hi hcol)
    | succ r' =>
      simp only [List.getElem?_cons_succ] at hr
      exact ih (y + 1) (scanRow y 0 row0 acc) r' row i c hr hi hcol

theorem scanRows_all_collapsed (rows : List (List Cell))
    (h : ∀ row ∈ rows, ∀ c ∈ row, c.is_collapsed = true) :
    ∀ (y : Nat) (acc : Nat × Nat × Nat), scanRows y rows acc = acc := by
  induction rows with
  | nil => intro y acc; rw [scanRows_nil]
  | cons row rest ih =>
    intro y acc
    rw [scanRows_cons, scanRow_all_collapsed y row (h row (by simp)) 0 acc]
    exact ih (fun row' hrow' => h row' (by simp [hrow'])) (y + 1) acc

theorem scanRows_char (rows : List (List Cell)) :
    ∀ (y : Nat) (acc : Nat × Nat × Nat),
    (scanRows y rows acc = acc ∧
      ∀ (r : Nat) (row : List Cell) (i : Nat) (c : Cell),
        rows[r]? = some row → row[i]? = some c → c.is_collapsed = false →
        acc.2.2 ≤ c.entropy)
    ∨ (∃ (r : Nat) (row : List Cell) (i : Nat) (c : Cell),
        rows[r]? = some row ∧ row[i]? = some c ∧ c.is_collapsed = false ∧
        scanRows y rows acc = (i, y + r, c.entropy) ∧ c.entropy < acc.2.2 ∧
        ∀ (r' : Nat) (row' : List Cell) (j : Nat) (c' : Cell),
          rows[r']? = some row' → row'[j]? = some c' → c'.is_collapsed = false →
          (r' < r ∨ (r' = r ∧ j < i)) → c.entropy < c'.entropy) := by
  induction rows with
  | nil =>
    intro y acc
    left
    refine ⟨scanRows_nil y acc, ?_⟩
    intro r row i c hr
    simp at hr
  | cons row0 rest ih =>
    intro y acc
    rw [scanRows_cons]
    rcases scanRow_char y row0 0 acc with ⟨hA, hAb⟩ | ⟨i0, c0, ha1, ha2, ha3, ha4, ha5⟩
    · rw [hA]
      rcases ih (y + 1) acc with ⟨hR, hRb⟩ | ⟨r, row', i, c, hr1, hr2, hr3, hr4, hr5, hr6⟩
      · left
        refine ⟨hR, ?_⟩
        intro r row i c hr hi hcol
        cases r with
        | zero =>
          simp only [List.getElem?_cons_zero, Option.some.injEq] at hr
          subst hr
          exact hAb i c hi hcol
        | succ r' =>
          simp only [List.getElem?_cons_succ] at hr
          exact hRb r' row i c hr hi hcol
      · right
        have hr1' : (row0 :: rest)[r + 1]? = some row' := by
          rw [List.getElem?_cons_succ]
          exact hr1
        have hr3' : scanRows (y + 1) rest acc = (i, y + (r + 1), c.entropy) := by
          have hy : y + 1 + r = y + (r + 1) := by omega
          rw [hr4, hy]
        refine ⟨r + 1, row', i, c, hr1', hr2, hr3, hr3', hr5, ?_⟩
        intro r' rowp j cp hrp hjp hcolp hcond
        cases r' with
        | zero =>
          simp only [List.getElem?_cons_zero, Option.some.injEq] at hrp
          subst hrp
          exact lt_of_lt_of_le hr5 (hAb j cp hjp hcolp)
        | succ r'' =>
          simp only [List.getElem?_cons_succ] at hrp
          refine hr6 r'' rowp j cp hrp hjp hcolp ?_
          omega
    · rcases ih (y + 1) (scanRow y 0 row0 acc) with ⟨hR, hRb⟩ |
        ⟨r, row', i, c, hr1, hr2, hr3, hr4, hr5, hr6⟩
      · right
        have h0 : (row0 :: rest)[0]? = some row0 := List.getElem?_cons_zero
        have hres : scanRows (y + 1) rest (scanRow y 0 row0 acc) =
            (i0, y + 0, c0.entropy) := by
          rw [hR, ha3, Nat.add_zero, Nat.zero_add]
        refine ⟨0, row0, i0, c0, h0, ha1, ha2, hres, ha4, ?_⟩
        intro r' rowp j cp hrp hjp hcolp hcond
        rcases hcond with hlt | ⟨hre, hj⟩
        · omega
        · subst hre
          simp only [List.getElem?_cons_zero, Option.some.injEq] at hrp
          subst hrp
          exact ha5 j cp hj hjp hcolp
      · right
        have hAe : (scanRow y 0 row0 acc).2.2 = c0.entropy := by
          rw [ha3]
        have hr1' : (row0 :: rest)[r + 1]? = some row' := by
          rw [List.getElem?_cons_succ]
          exact hr1
        have hres : scanRows (y + 1) rest (scanRow y 0 row0 acc) =
            (i, y + (r + 1), c.entropy) := by
          have hy : y + 1 + r = y + (r + 1) := by omega
          rw [hr4, hy]
        have hlt : c.entropy < c0.entropy := by
          rw [hAe] at hr5
          exact hr5
        refine ⟨r + 1, row', i, c, hr1', hr2, hr3, hres, lt_trans hlt ha4, ?_⟩
        intro r' rowp j cp hrp hjp hcolp hcond
        cases r' with
        | zero =>
          simp only [List.getElem?_cons_zero, Option.some.injEq] at hrp
          subst hrp
          have := scanRow_min y row0 0 acc j cp hjp hcolp
          rw [hAe] at this
          exact lt_of_lt_of_le hlt this
        | succ r'' =>
          simp only [List.getElem?_cons_succ] at hrp
          refine hr6 r'' rowp j cp hrp hjp hcolp ?_
          omega

/-! ### Collapse and step lemmas -/

theorem Grid.get_of_idx {g : Grid} {x y : Nat} {row : List Cell} {c : Cell}
    (hy : g.cells[y]? = some row) (hx : row[x]? = some c) :
    g.get x y = some c := by
  rw [Grid.get_eq, hy]
  exact hx

theorem Cell.collapse_spec {c : Cell} (k : Nat) (h : c.possibilities ≠ []) :
    ∃ t, c.collapse k = some ⟨[t]⟩ ∧ t ∈ c.possibilities := by
  have hlen : 0 < c.possibilities.length := List.length_pos.mpr h
  have hk : k % c.possibilities.length < c.possibilities.length := Nat.mod_lt _ hlen
  have hget : c.possibilities[k % c.possibilities.length]? =
      some c.possibilities[k % c.possibilities.length] := List.getElem?_eq_getElem hk
  refine ⟨c.possibilities[k % c.possibilities.length], ?_, List.getElem_mem hk⟩
  unfold Cell.collapse
  rw [hget]

theorem singleton_collapsed (t : TileConfig) : (⟨[t]⟩ : Cell).is_collapsed = true := by
  show (Cell.entropy ⟨[t]⟩ == 0) = true
  rw [Nat.beq_eq_true_eq]
  show ((1 + (USIZE - 1)) % USIZE) = 0
  unfold USIZE
  omega

theorem rowCollapsed_le (row : List Cell) : rowCollapsed row ≤ row.length :=
  sum_map_le_of_le_one _ row (by intro x _; by_cases h : x.is_collapsed <;> simp [h])

theorem sum_map_le_mul {α : Type} (l : List α) (f : α → Nat) (b : Nat)
    (h : ∀ x ∈ l, f x ≤ b) : (l.map f).sum ≤ l.length * b := by
  induction l with
  | nil => simp
  | cons x xs ih =>
    simp only [List.map_cons, List.sum_cons, List.length_cons, Nat.succ_mul]
    have hx := h x (by simp)
    have := ih (fun y hy => h y (by simp [hy]))
    omega

theorem Grid.collapsedCount_le {g : Grid} (hwf : g.WF) :
    g.collapsedCount ≤ g.options.width * g.options.height := by
  obtain ⟨hl, hr⟩ := hwf
  have := sum_map_le_mul g.cells rowCollapsed g.options.width
    (fun row hrow => le_trans (rowCollapsed_le row) (le_of_eq (hr row hrow)))
  show (g.cells.map rowCollapsed).sum ≤ g.options.width * g.options.height
  rw [Nat.mul_comm]
  rw [hl] at this
  exact this

theorem Grid.cellAt_NoEmpty {g : Grid} (hne : g.NoEmpty) {x y : Nat} {c : Cell}
    (h : g.get x y = some c) : c.possibilities ≠ [] := by
  obtain ⟨row, hy, hx⟩ := Grid.get_some h
  exact hne row (List.getElem?_mem hy) c (List.getElem?_mem hx)

theorem Grid.cellAt_MaxLen {g : Grid} (hml : g.MaxLen) {x y : Nat} {c : Cell}
    (h : g.get x y = some c) : c.possibilities.length ≤ g.tileset.tiles.length := by
  obtain ⟨row, hy, hx⟩ := Grid.get_some h
  exact hml row (List.getElem?_mem hy) c (List.getElem?_mem hx)

theorem Grid.step_none_eq {g : Grid} (k : Nat)
    (h : g.get g.nextCoords.1 g.nextCoords.2.1 = none) : g.step k = none := by
  unfold Grid.step
  dsimp only
  rw [h]

theorem Grid.step_some_collapsed {g : Grid} {c : Cell} (k : Nat)
    (hget : g.get g.nextCoords.1 g.nextCoords.2.1 = some c)
    (hcol : c.is_collapsed = true) :
    g.step k = some { g with finished := true } := by
  unfold Grid.step
  dsimp only
  rw [hget]
  dsimp only
  rw [hcol]
  simp

theorem Grid.step_some_noncollapsed {g : Grid} {c c' : Cell} (k : Nat)
    (hget : g.get g.nextCoords.1 g.nextCoords.2.1 = some c)
    (hcol : c.is_collapsed = false) (hco : c.collapse k = some c') :
    g.step k = some ((g.setCell g.nextCoords.1 g.nextCoords.2.1 c').propagate) := by
  unfold Grid.step
  dsimp only
  rw [hget]
  dsimp only
  rw [hcol, hco]
  simp

/-- The central progress property of `Grid::step` on a well-formed,
contradiction-free grid: the step either raises `finished` or collapses one
more cell, and it preserves the structural invariants. -/
theorem Grid.step_progress {g : Grid} (k : Nat)
    (hwf : g.WF) (hml : g.MaxLen) (hts : g.tileset.tiles.length < USIZE)
    (hne : g.NoEmpty) (hw : 1 ≤ g.options.width) (hh : 1 ≤ g.options.height) :
    ∃ g', g.step k = some g' ∧ g'.WF ∧ g'.MaxLen ∧
      g'.tileset = g.tileset ∧ g'.options = g.options ∧
      (g'.finished = true ∨ g.collapsedCount < g'.collapsedCount) := by
  rcases scanRows_char g.cells 0 (0, 0, g.tileset.tiles.length) with
    ⟨hR, hRb⟩ | ⟨rr, row, i, c, h1, h2, h3, h4, h5, h6⟩
  · -- no update happened: the scan returns the default (0, 0)
    have hcoords : g.nextCoords = (0, 0, g.tileset.tiles.length) := hR
    obtain ⟨hl, hr⟩ := hwf
    cases hcr : g.cells[0]? with
    | none =>
      exfalso
      have := List.getElem?_eq_none_iff.mp hcr
      omega
    | some row0 =>
      have hrow0 : row0.length = g.options.width := hr row0 (List.getElem?_mem hcr)
      cases hcc0 : row0[0]? with
      | none =>
        exfalso
        have := List.getElem?_eq_none_iff.mp hcc0
        omega
      | some c0 =>
        have hget : g.get 0 0 = some c0 := Grid.get_of_idx hcr hcc0
        have hcol : c0.is_collapsed = true := by
          cases hcc : c0.is_collapsed
          · exfalso
            have hbound : g.tileset.tiles.length ≤ c0.entropy :=
              hRb 0 row0 0 c0 hcr hcc0 hcc
            have hne0 : c0.possibilities ≠ [] := Grid.cellAt_NoEmpty hne hget
            have hml0 : c0.possibilities.length ≤ g.tileset.tiles.length :=
              Grid.cellAt_MaxLen hml hget
            have hlen0 : 0 < c0.possibilities.length := List.length_pos.mpr hne0
            have hent : c0.entropy = c0.possibilities.length - 1 :=
              entropy_eq hne0 (by omega)
            omega
          · rfl
        have hget' : g.get g.nextCoords.1 g.nextCoords.2.1 = some c0 := by
          rw [hcoords]
          exact hget
        refine ⟨{ g with finished := true },
          Grid.step_some_collapsed k hget' hcol, ⟨hl, hr⟩, hml, rfl, rfl, Or.inl rfl⟩
  · -- the scan found a non-collapsed cell of minimal entropy
    have hcoords : g.nextCoords = (i, 0 + rr, c.entropy) := h4
    have hget : g.get i rr = some c := Grid.get_of_idx h1 h2
    have hne0 : c.possibilities ≠ [] := Grid.cellAt_NoEmpty hne hget
    obtain ⟨t, hco, htmem⟩ := Cell.collapse_spec k hne0
    have htiles : 1 ≤ g.tileset.tiles.length := by
      have h1' := Grid.cellAt_MaxLen hml hget
      have h2' := List.length_pos.mpr hne0
      omega
    have hgetc : g.get g.nextCoords.1 g.nextCoords.2.1 = some c := by
      rw [hcoords]
      simp only [Nat.zero_add]
      exact hget
    have hcnt1 : (g.setCell g.nextCoords.1 g.nextCoords.2.1 ⟨[t]⟩).collapsedCount =
        g.collapsedCount + 1 := by
      have hex := Grid.collapsedCount_setCell (⟨[t]⟩ : Cell) hgetc
      rw [h3, singleton_collapsed] at hex
      simp only [Bool.false_eq_true, if_false, if_true] at hex
      omega
    have hwf1 : (g.setCell g.nextCoords.1 g.nextCoords.2.1 ⟨[t]⟩).WF :=
      Grid.WF_setCell _ hwf
    have hml1 : (g.setCell g.nextCoords.1 g.nextCoords.2.1 ⟨[t]⟩).MaxLen :=
      Grid.MaxLen_setCell hml (by simpa using htiles)
    obtain ⟨p1, p2, p3, p4, p5, p6⟩ :=
      (g.setCell g.nextCoords.1 g.nextCoords.2.1 ⟨[t]⟩).propagate_bundle
    refine ⟨(g.setCell g.nextCoords.1 g.nextCoords.2.1 ⟨[t]⟩).propagate,
      Grid.step_some_noncollapsed k hgetc h3 hco, p2 hwf1, p3 hml1, ?_, ?_, Or.inr ?_⟩
    · rw [p4]
      exact Grid.setCell_tileset g _ _ _
    · rw [p5]
      exact Grid.setCell_options g _ _ _
    · omega

theorem Grid.steps_zero (g : Grid) (rand : Nat → Nat) : g.steps rand 0 = some g := rfl

theorem Grid.steps_one (g : Grid) (rand : Nat → Nat) :
    g.steps rand 1 = g.step (rand 0) := rfl

theorem Grid.steps_succ_front (g : Grid) (rand : Nat → Nat) (n : Nat) :
    g.steps rand (n + 1) =
      (match g.step (rand 0) with
        | none => none
        | some g1 => g1.steps (fun i => rand (i + 1)) n) := by
  induction n with
  | zero =>
    rw [Grid.steps_one]
    cases g.step (rand 0) <;> rfl
  | succ n ih =>
    show (match g.steps rand (n + 1) with
      | none => none
      | some g' => g'.step (rand (n + 1))) = _
    rw [ih]
    cases g.step (rand 0) with
    | none => rfl
    | some g1 => rfl

theorem run_aux : ∀ (m : Nat) (g : Grid) (rand : Nat → Nat),
    g.WF → g.MaxLen → g.tileset.tiles.length < USIZE →
    1 ≤ g.options.width → 1 ≤ g.options.height →
    (∀ n g', n ≤ m + 1 → g.steps rand n = some g' → g'.NoEmpty) →
    g.options.width * g.options.height ≤ g.collapsedCount + m →
    ∃ n, n ≤ m + 1 ∧ ∃ g', g.steps rand n = some g' ∧ g'.finished = true := by
  intro m
  induction m with
  | zero =>
    intro g rand hwf hml hts hw hh hne hcnt
    have hne0 : g.NoEmpty := hne 0 g (by omega) (g.steps_zero rand)
    obtain ⟨g1, hstep, hwf1, hml1, hts1, hopt1, hdisj⟩ :=
      Grid.step_progress (rand 0) hwf hml hts hne0 hw hh
    rcases hdisj with hfin | hprog
    · exact ⟨1, le_refl _, g1, by rw [Grid.steps_one]; exact hstep, hfin⟩
    · exfalso
      have hle := Grid.collapsedCount_le hwf1
      rw [hopt1] at hle
      omega
  | succ m ih =>
    intro g rand hwf hml hts hw hh hne hcnt
    have hne0 : g.NoEmpty := hne 0 g (by omega) (g.steps_zero rand)
    obtain ⟨g1, hstep, hwf1, hml1, hts1, hopt1, hdisj⟩ :=
      Grid.step_progress (rand 0) hwf hml hts hne0 hw hh
    rcases hdisj with hfin | hprog
    · exact ⟨1, by omega, g1, by rw [Grid.steps_one]; exact hstep, hfin⟩
    · have hne1 : ∀ n g', n ≤ m + 1 →
          g1.steps (fun i => rand (i + 1)) n = some g' → g'.NoEmpty := by
        intro n g' hn hs
        refine hne (n + 1) g' (by omega) ?_
        rw [Grid.steps_succ_front, hstep]
        exact hs
      obtain ⟨n, hn, g', hs, hf⟩ := ih g1 (fun i => rand (i + 1)) hwf1 hml1
        (by rw [hts1]; exact hts) (by rw [hopt1]; exact hw) (by rw [hopt1]; exact hh)
        hne1 (by rw [hopt1]; omega)
      refine ⟨n + 1, by omega, g', ?_, hf⟩
      rw [Grid.steps_succ_front, hstep]
      exact hs

/-! ### Remaining small helpers -/

theorem constrainMany_nil (c : Cell) : constrainMany c [] = c := rfl

theorem constrainMany_cons (c : Cell) (p : Cell × Edge) (ps : List (Cell × Edge)) :
    constrainMany c (p :: ps) = constrainMany (c.constrain p.1 p.2).1 ps := by
  unfold constrainMany
  rw [List.foldl_cons]

theorem constrainMany_le : ∀ (calls : List (Cell × Edge)) (c : Cell),
    (constrainMany c calls).possibilities.length ≤ c.possibilities.length := by
  intro calls
  induction calls with
  | nil =>
    intro c
    rw [constrainMany_nil]
  | cons p ps ih =>
    intro c
    rw [constrainMany_cons]
    exact le_trans (ih _) (Cell.constrain_fst_length_le c p.1 p.2)

theorem natBeq_symm (a b : Nat) : (a == b) = (b == a) := by
  rw [Bool.eq_iff_iff, beq_iff_eq, beq_iff_eq]
  exact eq_comm

theorem mirrorMatch_symm (s o : Socket) : mirrorMatch s o = mirrorMatch o s := by
  unfold mirrorMatch
  rw [Bool.eq_iff_iff]
  simp only [Bool.and_eq_true, beq_iff_eq]
  constructor
  · rintro ⟨⟨h1, h2⟩, h3⟩
    exact ⟨⟨h3.symm, h2.symm⟩, h1.symm⟩
  · rintro ⟨⟨h1, h2⟩, h3⟩
    exact ⟨⟨h3.symm, h2.symm⟩, h1.symm⟩

theorem constrain_filter_eq {c other : Cell} {e : Edge}
    (hnd : c.possibilities.Nodup) (hcol : c.is_collapsed = false) :
    (c.constrain other e).1.possibilities =
      c.possibilities.filter
        (fun p => other.possibilities.any fun q => connects_to p q e) := by
  have hbase : (c.constrain other e).1.possibilities =
      (c.possibilities.filter
          (fun p => ! other.possibilities.any fun q => connects_to p q e)).foldl
        (fun acc u => acc.erase u) c.possibilities := by
    simp [Cell.constrain, hcol]
  rw [hbase, foldl_erase_filter _ hnd]

/-! ### The claims -/

/-- C1 (counterexample): the claim's bound `width × height` fails on a 1×1
grid with a two-tile unconstrained catalog: all the claim's hypotheses hold,
yet after every prefix of at most `width × height = 1` steps the `finished`
flag is still false (the first step only collapses the single cell; only the
second step can observe it collapsed and set the flag). -/
theorem C1_counterexample :
    (gEx.WF ∧ gEx.MaxLen ∧ gEx.tileset.tiles.length < USIZE ∧
      1 ≤ gEx.options.width ∧ 1 ≤ gEx.options.height ∧
      (∀ n, n ≤ gEx.options.width * gEx.options.height + 1 →
        ∀ g', gEx.steps randEx n = some g' → g'.NoEmpty)) ∧
    (∀ n, n ≤ gEx.options.width * gEx.options.height →
      ∀ g', gEx.steps randEx n = some g' → g'.finished = false) := by
  constructor
  · exact ⟨by decide, by decide, by decide, by decide, by decide, by decide⟩
  · decide

/-- C1 (amended): for a well-formed grid of width, height ≥ 1 whose cells
stay within the catalog bound and never reach the empty (contradiction)
state along the run, repeated `step()` calls set `finished` within at most
`width × height + 1` calls (not `width × height` as claimed: the call that
collapses the last cell never sets the flag; one further call is needed to
observe the fully-collapsed grid). -/
theorem C1_step_termination (g : Grid) (rand : Nat → Nat)
    (hwf : g.WF) (hml : g.MaxLen) (hts : g.tileset.tiles.length < USIZE)
    (hw : 1 ≤ g.options.width) (hh : 1 ≤ g.options.height)
    (hne : ∀ n, n ≤ g.options.width * g.options.height + 1 →
      ∀ g', g.steps rand n = some g' → g'.NoEmpty) :
    ∃ n, n ≤ g.options.width * g.options.height + 1 ∧
      ∃ g', g.steps rand n = some g' ∧ g'.finished = true :=
  run_aux (g.options.width * g.options.height) g rand hwf hml hts hw hh
    (fun n g' hn hs => hne n hn g' hs) (by omega)

/-- C1 (witness): the amended bound holds concretely on the 1×1 grid. -/
theorem C1_witness :
    ∃ n, n ≤ gEx.options.width * gEx.options.height + 1 ∧
      ∃ g', gEx.steps randEx n = some g' ∧ g'.finished = true :=
  C1_step_termination gEx randEx (by decide) (by decide) (by decide) (by decide)
    (by decide) (by decide)

/-- C2: `next_lowest_entropy`'s scan state starts at the threshold
`catalog.len()`, its final entropy is a lower bound of every non-collapsed
cell's entropy, any update (final entropy below the threshold) names a
non-collapsed cell realizing that entropy that is the row-major-first such
cell (every earlier non-collapsed cell has strictly larger entropy), and
when every cell is collapsed the function returns the cell at the default
coordinates (0, 0) instead of an explicit absent result. -/
theorem C2_next_lowest_entropy (g : Grid) :
    (g.nextCoords.2.2 ≤ g.tileset.tiles.length ∧
      ∀ (x y : Nat) (c : Cell), g.get x y = some c → c.is_collapsed = false →
        g.nextCoords.2.2 ≤ c.entropy) ∧
    (g.nextCoords.2.2 < g.tileset.tiles.length →
      ∃ c, g.get g.nextCoords.1 g.nextCoords.2.1 = some c ∧
        c.is_collapsed = false ∧ c.entropy = g.nextCoords.2.2 ∧
        ∀ (x y : Nat) (c' : Cell), g.get x y = some c' → c'.is_collapsed = false →
          (y < g.nextCoords.2.1 ∨ (y = g.nextCoords.2.1 ∧ x < g.nextCoords.1)) →
          g.nextCoords.2.2 < c'.entropy) ∧
    ((∀ row ∈ g.cells, ∀ c ∈ row, c.is_collapsed = true) →
      g.next_lowest_entropy = g.get 0 0) := by
  refine ⟨⟨?_, ?_⟩, ?_, ?_⟩
  · exact scanRows_acc_le g.cells 0 (0, 0, g.tileset.tiles.length)
  · intro x y c hget hcol
    obtain ⟨row, hy, hx⟩ := Grid.get_some hget
    exact scanRows_min g.cells 0 (0, 0, g.tileset.tiles.length) y row x c hy hx hcol
  · intro hlt
    rcases scanRows_char g.cells 0 (0, 0, g.tileset.tiles.length) with
      ⟨hR, hRb⟩ | ⟨rr, row, i, c, h1, h2, h3, h4, h5, h6⟩
    · exfalso
      have : g.nextCoords = (0, 0, g.tileset.tiles.length) := hR
      rw [this] at hlt
      exact absurd hlt (lt_irrefl _)
    · have hcoords : g.nextCoords = (i, 0 + rr, c.entropy) := h4
      refine ⟨c, ?_, h3, by rw [hcoords], ?_⟩
      · rw [hcoords]
        simp only [Nat.zero_add]
        exact Grid.get_of_idx h1 h2
      · intro x y c' hget' hcol' hlex
        obtain ⟨row', hy, hx⟩ := Grid.get_some hget'
        rw [hcoords] at hlex ⊢
        simp only [Nat.zero_add] at hlex
        exact h6 y row' x c' hy hx hcol' hlex
  · intro hall
    have hcoords : g.nextCoords = (0, 0, g.tileset.tiles.length) :=
      scanRows_all_collapsed g.cells hall 0 _
    show g.get g.nextCoords.1 g.nextCoords.2.1 = g.get 0 0
    rw [hcoords]

/-- C2 (witness): on the fresh 1×1 grid the scan finds the single
non-collapsed cell below the threshold. -/
theorem C2_witness :
    gEx.nextCoords.2.2 < gEx.tileset.tiles.length ∧
    ∃ c, gEx.get gEx.nextCoords.1 gEx.nextCoords.2.1 = some c ∧
      c.is_collapsed = false ∧ c.entropy = gEx.nextCoords.2.2 ∧
      ∀ (x y : Nat) (c' : Cell), gEx.get x y = some c' → c'.is_collapsed = false →
        (y < gEx.nextCoords.2.1 ∨ (y = gEx.nextCoords.2.1 ∧ x < gEx.nextCoords.1)) →
        gEx.nextCoords.2.2 < c'.entropy :=
  ⟨by decide, (C2_next_lowest_entropy gEx).2.1 (by decide)⟩

/-- C3: `constrain` is a no-op returning false on a collapsed cell;
otherwise it keeps a candidate exactly when some neighbor candidate is
edge-compatible with it; it returns true exactly when the set shrank; and
any sequence of `constrain` calls never grows the set. -/
theorem C3_constrain (c other : Cell) (e : Edge) (hnd : c.possibilities.Nodup) :
    (c.is_collapsed = true → c.constrain other e = (c, false)) ∧
    (c.is_collapsed = false →
      ∀ t, t ∈ (c.constrain other e).1.possibilities ↔
        (t ∈ c.possibilities ∧ ∃ n ∈ other.possibilities, connects_to t n e = true)) ∧
    ((c.constrain other e).2 = true ↔
      (c.constrain other e).1.possibilities.length < c.possibilities.length) ∧
    (∀ calls : List (Cell × Edge),
      (constrainMany c calls).possibilities.length ≤ c.possibilities.length) := by
  refine ⟨fun h => Cell.constrain_collapsed other e h, ?_, ?_,
    fun calls => constrainMany_le calls c⟩
  · intro hcol t
    rw [constrain_filter_eq hnd hcol, List.mem_filter, List.any_eq_true]
  · by_cases hcol : c.is_collapsed
    · rw [Cell.constrain_collapsed other e hcol]
      simp
    · have hcol' : c.is_collapsed = false := by
        cases hcc : c.is_collapsed
        · rfl
        · exact absurd hcc hcol
      have hsnd : (c.constrain other e).2 =
          decide (0 < (c.possibilities.filter
            (fun p => ! other.possibilities.any fun q => connects_to p q e)).length) := by
        simp [Cell.constrain, hcol']
      rw [hsnd, constrain_filter_eq hnd hcol', decide_eq_true_eq,
        List.length_filter_lt_length_iff_exists]
      constructor
      · intro hpos
        obtain ⟨u, hu⟩ := List.exists_mem_of_length_pos hpos
        rw [List.mem_filter] at hu
        refine ⟨u, hu.1, ?_⟩
        simp only [Bool.not_eq_eq_eq_not, Bool.not_true] at hu
        simp [hu.2]
      · rintro ⟨u, hu, hpred⟩
        refine List.length_pos_of_mem (List.mem_filter.mpr ⟨hu, ?_⟩)
        simp only [Bool.not_eq_eq_eq_not, Bool.not_true]
        cases hp : other.possibilities.any fun q => connects_to u q e
        · rfl
        · exact absurd hp hpred

/-- C3 (witness): the characterization at a concrete cell pair. -/
theorem C3_witness :
    (Cell.new tsEx).possibilities.Nodup ∧
    (((Cell.new tsEx).is_collapsed = true →
        (Cell.new tsEx).constrain (Cell.new tsEx) Edge.Right = (Cell.new tsEx, false)) ∧
      ((Cell.new tsEx).is_collapsed = false →
        ∀ t, t ∈ ((Cell.new tsEx).constrain (Cell.new tsEx) Edge.Right).1.possibilities ↔
          (t ∈ (Cell.new tsEx).possibilities ∧
            ∃ n ∈ (Cell.new tsEx).possibilities, connects_to t n Edge.Right = true)) ∧
      (((Cell.new tsEx).constrain (Cell.new tsEx) Edge.Right).2 = true ↔
        ((Cell.new tsEx).constrain (Cell.new tsEx) Edge.Right).1.possibilities.length <
          (Cell.new tsEx).possibilities.length) ∧
      (∀ calls : List (Cell × Edge),
        (constrainMany (Cell.new tsEx) calls).possibilities.length ≤
          (Cell.new tsEx).possibilities.length)) :=
  ⟨by decide, C3_constrain (Cell.new tsEx) (Cell.new tsEx) Edge.Right (by decide)⟩

/-- C4: `connects_to` pairs the facing edge signatures per direction and
applies the mirror-match rule, and the resulting predicate satisfies
`compatible(A, B, Right) = compatible(B, A, Left)` and the Top/Bottom
analog. -/
theorem C4_connects_to :
    (∀ a b : TileConfig,
      connects_to a b Edge.Top = mirrorMatch a.sockTop b.sockBottom ∧
      connects_to a b Edge.Right = mirrorMatch a.sockRight b.sockLeft ∧
      connects_to a b Edge.Bottom = mirrorMatch a.sockBottom b.sockTop ∧
      connects_to a b Edge.Left = mirrorMatch a.sockLeft b.sockRight) ∧
    (∀ a b : TileConfig, connects_to a b Edge.Right = connects_to b a Edge.Left) ∧
    (∀ a b : TileConfig, connects_to a b Edge.Top = connects_to b a Edge.Bottom) := by
  refine ⟨fun a b => ⟨rfl, rfl, rfl, rfl⟩, fun a b => ?_, fun a b => ?_⟩
  · show mirrorMatch a.sockRight b.sockLeft = mirrorMatch b.sockLeft a.sockRight
    exact mirrorMatch_symm _ _
  · show mirrorMatch a.sockTop b.sockBottom = mirrorMatch b.sockBottom a.sockTop
    exact mirrorMatch_symm _ _

/-- C5: collapsing a cell with a non-empty possibility set yields a
singleton set whose element was in the pre-collapse set, after which
`is_collapsed()` is true. -/
theorem C5_collapse (c : Cell) (k : Nat) (h : c.possibilities ≠ []) :
    ∃ c', c.collapse k = some c' ∧ c'.possibilities.length = 1 ∧
      (∀ t ∈ c'.possibilities, t ∈ c.possibilities) ∧ c'.is_collapsed = true := by
  obtain ⟨t, hco, hmem⟩ := Cell.collapse_spec k h
  refine ⟨⟨[t]⟩, hco, rfl, ?_, singleton_collapsed t⟩
  intro u hu
  simp only [List.mem_singleton] at hu
  subst hu
  exact hmem

/-- C5 (witness): collapsing the fresh two-tile cell. -/
theorem C5_witness :
    (Cell.new tsEx).possibilities ≠ [] ∧
    ∃ c', (Cell.new tsEx).collapse 1 = some c' ∧ c'.possibilities.length = 1 ∧
      (∀ t ∈ c'.possibilities, t ∈ (Cell.new tsEx).possibilities) ∧
      c'.is_collapsed = true :=
  ⟨by decide, C5_collapse (Cell.new tsEx) 1 (by decide)⟩

/-- C6: `propagate` reaches a fixed point — running it a second time leaves
the grid unchanged, and one further full sweep after it reports no
reduction. -/
theorem C6_propagate_idempotent (g : Grid) :
    g.propagate.propagate = g.propagate ∧ g.propagate.sweep.2 = false :=
  ⟨Grid.propagate_of_fixed g.propagate_sweep_false, g.propagate_sweep_false⟩

/-- C7: at the failing input — two catalog entries with one image reference
but different sockets — the source's `PartialEq` deems the entries equal,
yet the freshly built possibility set retains both (the derived `Hash`
covers the sockets, so `HashSet` never deduplicates them), leaving entropy 1
instead of the 0 the claimed image-identity deduplication would give. -/
theorem C7_dedup_bug :
    imageEq tcDupA tcDupB = true ∧ tcDupA.image = tcDupB.image ∧
    tcDupA ≠ tcDupB ∧
    (Cell.new tsDup).possibilities.length = 2 ∧
    (Cell.new tsDup).entropy = 1 ∧
    (Cell.new tsDup).is_collapsed = false := by
  refine ⟨rfl, rfl, by decide, rfl, by decide, by decide⟩

/-- C8: for a cell whose possibility set has fewer than `2^64` entries,
`entropy()` is `size - 1` without wraparound whenever the set is non-empty,
`is_collapsed()` holds exactly for singleton sets, and the wrapped
(underflowed) value `2^64 - 1` arises exactly for the empty set. -/
theorem C8_entropy (c : Cell) (h2 : c.possibilities.length < USIZE) :
    (c.possibilities ≠ [] → c.entropy = c.possibilities.length - 1) ∧
    (c.is_collapsed = true ↔ c.possibilities.length = 1) ∧
    (c.possibilities = [] → c.entropy = USIZE - 1) :=
  ⟨fun h1 => entropy_eq h1 h2, is_collapsed_iff h2, entropy_empty⟩

/-- C8 (witness): the two-tile cell has entropy 1 and is not collapsed. -/
theorem C8_witness :
    (Cell.new tsEx).possibilities.length < USIZE ∧
    (((Cell.new tsEx).possibilities ≠ [] →
        (Cell.new tsEx).entropy = (Cell.new tsEx).possibilities.length - 1) ∧
      ((Cell.new tsEx).is_collapsed = true ↔
        (Cell.new tsEx).possibilities.length = 1) ∧
      ((Cell.new tsEx).possibilities = [] →
        (Cell.new tsEx).entropy = USIZE - 1)) :=
  ⟨by decide, C8_entropy (Cell.new tsEx) (by decide)⟩

/-- C9: `Model::new` discards the framerate and seed options (it hardcodes
`None` for both), so two option records agreeing on width and height build
equal models, and every subsequent run with the same random draws is
identical. -/
theorem C9_options_noop (ts : Tileset) (o1 o2 : Options)
    (hw : o1.width = o2.width) (hh : o1.height = o2.height) :
    Model.new ts o1 = Model.new ts o2 ∧
    ∀ (rand : Nat → Nat) (n : Nat),
      (Model.new ts o1).grid.steps rand n = (Model.new ts o2).grid.steps rand n := by
  have hm : Model.new ts o1 = Model.new ts o2 := by
    unfold Model.new
    rw [hw, hh]
  exact ⟨hm, fun rand n => by rw [hm]⟩

/-- C9 (witness): options differing only in framerate and seed. -/
theorem C9_witness :
    o1W.width = o2W.width ∧ o1W.height = o2W.height ∧
    Model.new tsEx o1W = Model.new tsEx o2W :=
  ⟨rfl, rfl, (C9_options_noop tsEx o1W o2W rfl rfl).1⟩

/-- C10: on a well-formed grid with width, height ≥ 1 the scan always
returns a cell, so the `unwrap` on `next_lowest_entropy()` in `step()`
cannot fail, while for width 0 or height 0 the scan returns absent and
`step()` panics (modelled as `none`). -/
theorem C10_next_lowest_entropy_total (g : Grid) (hwf : g.WF) :
    ((1 ≤ g.options.width ∧ 1 ≤ g.options.height) →
      ∃ c, g.next_lowest_entropy = some c) ∧
    ((g.options.width = 0 ∨ g.options.height = 0) →
      g.next_lowest_entropy = none ∧ ∀ k, g.step k = none) := by
  obtain ⟨hl, hr⟩ := hwf
  constructor
  · rintro ⟨hw, hh⟩
    rcases scanRows_char g.cells 0 (0, 0, g.tileset.tiles.length) with
      ⟨hR, hRb⟩ | ⟨rr, row, i, c, h1, h2, h3, h4, h5, h6⟩
    · cases hcr : g.cells[0]? with
      | none =>
        exfalso
        have := List.getElem?_eq_none_iff.mp hcr
        omega
      | some row0 =>
        have hrow0 : row0.length = g.options.width := hr row0 (List.getElem?_mem hcr)
        cases hcc0 : row0[0]? with
        | none =>
          exfalso
          have := List.getElem?_eq_none_iff.mp hcc0
          omega
        | some c0 =>
          refine ⟨c0, ?_⟩
          show g.get g.nextCoords.1 g.nextCoords.2.1 = some c0
          rw [show g.nextCoords = (0, 0, g.tileset.tiles.length) from hR]
          exact Grid.get_of_idx hcr hcc0
    · refine ⟨c, ?_⟩
      show g.get g.nextCoords.1 g.nextCoords.2.1 = some c
      rw [show g.nextCoords = (i, 0 + rr, c.entropy) from h4]
      simp only [Nat.zero_add]
      exact Grid.get_of_idx h1 h2
  · intro hdeg
    have hall : ∀ row ∈ g.cells, ∀ c ∈ row, c.is_collapsed = true := by
      intro row hrow c hc
      exfalso
      rcases hdeg with hw0 | hh0
      · have hz : row.length = 0 := by rw [hr row hrow, hw0]
        rw [List.length_eq_zero] at hz
        subst hz
        simp at hc
      · have hz : g.cells.length = 0 := by rw [hl, hh0]
        rw [List.length_eq_zero] at hz
        rw [hz] at hrow
        simp at hrow
    have hcoords : g.nextCoords = (0, 0, g.tileset.tiles.length) :=
      scanRows_all_collapsed g.cells hall 0 _
    have hnone : g.get 0 0 = none := by
      rw [Grid.get_eq]
      cases hcr : g.cells[0]? with
      | none => rfl
      | some row0 =>
        have hrow0 : row0.length = g.options.width := hr row0 (List.getElem?_mem hcr)
        rcases hdeg with hw0 | hh0
        · have hz : row0.length = 0 := by omega
          rw [List.length_eq_zero] at hz
          subst hz
          rfl
        · exfalso
          obtain ⟨hlt, -⟩ := List.getElem?_eq_some.mp hcr
          omega
    have hnle : g.next_lowest_entropy = none := by
      show g.get g.nextCoords.1 g.nextCoords.2.1 = none
      rw [hcoords]
      exact hnone
    refine ⟨hnle, fun k => Grid.step_none_eq k ?_⟩
    rw [hcoords]
    exact hnone

/-- C10 (witness): the 1×1 grid yields a cell; the zero-width grid yields
absent and a failing step. -/
theorem C10_witness :
    gEx.WF ∧ (∃ c, gEx.next_lowest_entropy = some c) ∧
    (gDeg.next_lowest_entropy = none ∧ ∀ k, gDeg.step k = none) :=
  ⟨by decide, (C10_next_lowest_entropy_total gEx (by decide)).1 (by decide),
    (C10_next_lowest_entropy_total gDeg (by decide)).2 (by decide)⟩

end WFC
